import Mathlib

/-!
Verification of the `BigInt4096` fixed-width (4096-bit) unsigned integer
engine and its number-theoretic primitives (`modExp`, `isPrime`), as
implemented in `src/BigInt4096.hpp`.

The value space is `[0, 2^4096)`.  A `BigInt4096` stores 64 little-endian
64-bit words; its value is `Σ word[i] * 2^(64*i)`.

Embedding conventions:
* The word-level carry/borrow loops of `operator+`, `operator-` and
  `operator*` are embedded verbatim over little-endian word lists
  (`addLoop`, `subLoop`, `mulInner`/`mulAux`), and their value-level
  characterisations are proved.
* The remaining operations are embedded at value level: a 4096-bit machine
  integer is a `Nat`, with an explicit `% W` (`W = 2^4096`) exactly where
  the C++ code truncates to 64 words.
* Fallible operations (`operator/`, `operator%`, `modExp` — which throw on
  a zero divisor/modulus) return `Option`.
* `while` loops whose variant is a value being halved are given explicit
  fuel `4096`; every `BigInt4096` value is `< 2^4096`, so the fuel is never
  exhausted on the data the code can hold.
-/

namespace OPrime

/-- `2^4096`, the size of the `BigInt4096` value space (64 words of 64 bits). -/
def W : Nat := 2 ^ 4096

/-- Value of a little-endian list of 64-bit words:
`value = Σ word[i] * 2^(64*i)` (spec §3). -/
def toNat : List Nat → Nat
  | [] => 0
  | w :: ws => w + 2 ^ 64 * toNat ws

/-- A well-formed `BigInt4096` word array: exactly 64 words, each a 64-bit
value.  (`std::array<uint64_t, 64>`.) -/
def wordsValid (ws : List Nat) : Prop := ws.length = 64 ∧ ∀ w ∈ ws, w < 2 ^ 64

instance (ws : List Nat) : Decidable (wordsValid ws) := by
  unfold wordsValid; infer_instance

/-- Word loop of `BigInt4096::operator+`: word-by-word sum with 1-bit carry
through a double-width intermediate (`sum = data[i] + rhs.data[i] + carry`;
the written word is `sum`'s low 64 bits, the carry its high part).  The carry
out of the top word is discarded. -/
def addLoop : List Nat → List Nat → Nat → List Nat
  | x :: xs, y :: ys, c => (x + y + c) % 2 ^ 64 :: addLoop xs ys ((x + y + c) / 2 ^ 64)
  | _, _, _ => []

/-- `BigInt4096::operator+` (carry in starts at 0). -/
def addWords (xs ys : List Nat) : List Nat := addLoop xs ys 0

/-- Word loop of `BigInt4096::operator-`: word-by-word difference with 1-bit
borrow; `sub = data[i] - rhs.data[i] - borrow` is formed in 128-bit
two's-complement, the written word is its low 64 bits and the next borrow its
sign bit.  The borrow out of the top word is discarded. -/
def subLoop : List Nat → List Nat → Nat → List Nat
  | x :: xs, y :: ys, c =>
    if y + c ≤ x then (x - y - c) :: subLoop xs ys 0
    else (2 ^ 64 + x - y - c) :: subLoop xs ys 1
  | _, _, _ => []

/-- `BigInt4096::operator-` (borrow in starts at 0). -/
def subWords (xs ys : List Nat) : List Nat := subLoop xs ys 0

/-- Inner loop of `BigInt4096::operator*` for one left word `w = data[i]`:
for each `j` with `i + j < 64`, accumulate `w * rhs.data[j]` into
`res.data[i+j]` with carry propagation (`mul = w * rhs.data[j] + res[i+j] +
carry`).  `bs` is the remaining right-operand words, `rs` the result words
from position `i` up; the loop stops at the top word (end of `rs`), dropping
the final carry. -/
def mulInner (w : Nat) : List Nat → List Nat → Nat → List Nat
  | b :: bs, r :: rs, c =>
    (w * b + r + c) % 2 ^ 64 :: mulInner w bs rs ((w * b + r + c) / 2 ^ 64)
  | _, _, _ => []

/-- Outer loop of `BigInt4096::operator*`: for each left word `data[i]`
(taken in increasing `i`), run `mulInner` on the result words from position
`i` up, skipping zero words.  Once position `i` is written it is never
touched again, so the result is emitted head-first. -/
def mulAux : List Nat → List Nat → List Nat → List Nat
  | [], _, res => res
  | a :: as, b, res =>
    match (if a = 0 then res else mulInner a b res 0) with
    | [] => []
    | r :: rest => r :: mulAux as b rest

/-- `BigInt4096::operator*` (result array starts zeroed). -/
def mulWords (xs ys : List Nat) : List Nat := mulAux xs ys (List.replicate 64 0)

/-! ### Value-level characterisation of the word loops -/

/-- Digit-decomposition step for moduli: a low digit `r < P` plus `P` times a
high part, reduced modulo `P * M`, keeps the low digit and reduces the high
part modulo `M`. -/
theorem digit_mod (P M r x : Nat) (hr : r < P) :
    (r + P * x) % (P * M) = r + P * (x % M) := by
  rcases Nat.eq_zero_or_pos M with hM | hM
  · subst hM; simp [Nat.mod_zero]
  · have hsplit : r + P * x = r + P * (x % M) + P * M * (x / M) := by
      conv_lhs => rw [← Nat.div_add_mod x M]
      ring
    rw [hsplit, Nat.add_mul_mod_self_left]
    apply Nat.mod_eq_of_lt
    have h1 : x % M + 1 ≤ M := Nat.succ_le_of_lt (Nat.mod_lt _ hM)
    calc r + P * (x % M) < P + P * (x % M) := Nat.add_lt_add_right hr _
      _ = P * (x % M + 1) := by ring
      _ ≤ P * M := Nat.mul_le_mul_left P h1

theorem toNat_lt (ws : List Nat) (h : ∀ w ∈ ws, w < 2 ^ 64) :
    toNat ws < 2 ^ (64 * ws.length) := by
  induction ws with
  | nil => simp [toNat]
  | cons w ws ih =>
    have hw : w < 2 ^ 64 := h w (by simp)
    have ht : toNat ws < 2 ^ (64 * ws.length) :=
      ih (fun x hx => h x (by simp [hx]))
    simp only [toNat, List.length_cons]
    have hpow : 2 ^ (64 * (ws.length + 1)) = 2 ^ 64 * 2 ^ (64 * ws.length) := by
      rw [← Nat.pow_add]; ring_nf
    rw [hpow]
    calc w + 2 ^ 64 * toNat ws
        < 2 ^ 64 + 2 ^ 64 * toNat ws := Nat.add_lt_add_right hw _
      _ = 2 ^ 64 * (toNat ws + 1) := by ring
      _ ≤ 2 ^ 64 * 2 ^ (64 * ws.length) := Nat.mul_le_mul_left _ (Nat.succ_le_of_lt ht)

/-- The addition loop computes the sum (plus carry in) modulo `2^(64·len)`. -/
theorem addLoop_toNat : ∀ (xs ys : List Nat) (c : Nat),
    xs.length = ys.length →
    toNat (addLoop xs ys c) = (toNat xs + toNat ys + c) % 2 ^ (64 * xs.length) := by
  intro xs
  induction xs with
  | nil =>
    intro ys c hlen
    have : ys = [] := List.length_eq_zero.mp (by simpa using hlen.symm)
    subst this
    simp [addLoop, toNat, Nat.mod_one]
  | cons x xs ih =>
    intro ys c hlen
    cases ys with
    | nil => simp at hlen
    | cons y ys =>
      have hlen' : xs.length = ys.length := by simpa using hlen
      have hpow : 2 ^ (64 * ((x :: xs).length)) = 2 ^ 64 * 2 ^ (64 * xs.length) := by
        rw [← Nat.pow_add]; congr 1; simp; ring
      calc toNat (addLoop (x :: xs) (y :: ys) c)
          = (x + y + c) % 2 ^ 64 +
              2 ^ 64 * ((toNat xs + toNat ys + (x + y + c) / 2 ^ 64) % 2 ^ (64 * xs.length)) := by
            simp only [addLoop, toNat]
            rw [ih ys _ hlen']
        _ = ((x + y + c) % 2 ^ 64 +
              2 ^ 64 * (toNat xs + toNat ys + (x + y + c) / 2 ^ 64)) %
              (2 ^ 64 * 2 ^ (64 * xs.length)) :=
            (digit_mod _ _ _ _ (Nat.mod_lt _ (by positivity))).symm
        _ = ((x + y + c) % 2 ^ 64 + 2 ^ 64 * ((x + y + c) / 2 ^ 64) +
              (2 ^ 64 * toNat xs + 2 ^ 64 * toNat ys)) %
              (2 ^ 64 * 2 ^ (64 * xs.length)) := by ring_nf
        _ = (toNat (x :: xs) + toNat (y :: ys) + c) % (2 ^ 64 * 2 ^ (64 * xs.length)) := by
            rw [Nat.mod_add_div]
            simp only [toNat]
            ring_nf
        _ = (toNat (x :: xs) + toNat (y :: ys) + c) % 2 ^ (64 * (x :: xs).length) := by
            rw [hpow]

/-- `operator+` wraps: the value of the sum is `(a + b) % 2^4096`. -/
theorem addWords_toNat (xs ys : List Nat) (hx : wordsValid xs) (hy : wordsValid ys) :
    toNat (addWords xs ys) = (toNat xs + toNat ys) % W := by
  have h := addLoop_toNat xs ys 0 (by rw [hx.1, hy.1])
  rw [addWords, h, hx.1]
  norm_num [W]

/-- The subtraction loop computes `xs - ys - borrow` in two's complement
modulo `2^(64·len)`. -/
theorem subLoop_toNat : ∀ (xs ys : List Nat) (c : Nat),
    xs.length = ys.length → c ≤ 1 →
    (∀ w ∈ xs, w < 2 ^ 64) → (∀ w ∈ ys, w < 2 ^ 64) →
    toNat (subLoop xs ys c) =
      (2 ^ (64 * xs.length) + toNat xs - toNat ys - c) % 2 ^ (64 * xs.length) := by
  intro xs
  induction xs with
  | nil =>
    intro ys c hlen hc _ _
    have : ys = [] := List.length_eq_zero.mp (by simpa using hlen.symm)
    subst this
    simp [subLoop, toNat, Nat.mod_one]
  | cons x xs ih =>
    intro ys c hlen hc hxv hyv
    cases ys with
    | nil => simp at hlen
    | cons y ys =>
      have hlen' : xs.length = ys.length := by simpa using hlen
      have hx : x < 2 ^ 64 := hxv x (by simp)
      have hy : y < 2 ^ 64 := hyv y (by simp)
      have hxv' : ∀ w ∈ xs, w < 2 ^ 64 := fun w hw => hxv w (by simp [hw])
      have hyv' : ∀ w ∈ ys, w < 2 ^ 64 := fun w hw => hyv w (by simp [hw])
      have hY : toNat ys < 2 ^ (64 * xs.length) := by
        rw [hlen']; exact toNat_lt ys hyv'
      have hpow : 2 ^ (64 * ((x :: xs).length)) = 2 ^ 64 * 2 ^ (64 * xs.length) := by
        rw [← Nat.pow_add]; congr 1; simp; ring
      by_cases hbr : y + c ≤ x
      · calc toNat (subLoop (x :: xs) (y :: ys) c)
            = (x - y - c) + 2 ^ 64 *
                ((2 ^ (64 * xs.length) + toNat xs - toNat ys - 0) % 2 ^ (64 * xs.length)) := by
              simp only [subLoop, if_pos hbr, toNat]
              rw [ih ys 0 hlen' (by omega) hxv' hyv']
          _ = ((x - y - c) + 2 ^ 64 * (2 ^ (64 * xs.length) + toNat xs - toNat ys - 0)) %
                (2 ^ 64 * 2 ^ (64 * xs.length)) :=
              (digit_mod (2 ^ 64) (2 ^ (64 * xs.length)) (x - y - c)
                (2 ^ (64 * xs.length) + toNat xs - toNat ys - 0) (by omega)).symm
          _ = (2 ^ 64 * 2 ^ (64 * xs.length) + toNat (x :: xs) - toNat (y :: ys) - c) %
                (2 ^ 64 * 2 ^ (64 * xs.length)) := by
              have h9 : (x - y - c) + 2 ^ 64 * (2 ^ (64 * xs.length) + toNat xs - toNat ys - 0) =
                  2 ^ 64 * 2 ^ (64 * xs.length) + (x + 2 ^ 64 * toNat xs) -
                    (y + 2 ^ 64 * toNat ys) - c := by omega
              simp only [toNat]
              rw [h9]
          _ = (2 ^ (64 * (x :: xs).length) + toNat (x :: xs) - toNat (y :: ys) - c) %
                2 ^ (64 * (x :: xs).length) := by rw [hpow]
      · calc toNat (subLoop (x :: xs) (y :: ys) c)
            = (2 ^ 64 + x - y - c) + 2 ^ 64 *
                ((2 ^ (64 * xs.length) + toNat xs - toNat ys - 1) % 2 ^ (64 * xs.length)) := by
              simp only [subLoop, if_neg hbr, toNat]
              rw [ih ys 1 hlen' (by omega) hxv' hyv']
          _ = ((2 ^ 64 + x - y - c) + 2 ^ 64 * (2 ^ (64 * xs.length) + toNat xs - toNat ys - 1)) %
                (2 ^ 64 * 2 ^ (64 * xs.length)) :=
              (digit_mod (2 ^ 64) (2 ^ (64 * xs.length)) (2 ^ 64 + x - y - c)
                (2 ^ (64 * xs.length) + toNat xs - toNat ys - 1) (by omega)).symm
          _ = (2 ^ 64 * 2 ^ (64 * xs.length) + toNat (x :: xs) - toNat (y :: ys) - c) %
                (2 ^ 64 * 2 ^ (64 * xs.length)) := by
              have h9 : (2 ^ 64 + x - y - c) + 2 ^ 64 * (2 ^ (64 * xs.length) + toNat xs - toNat ys - 1) =
                  2 ^ 64 * 2 ^ (64 * xs.length) + (x + 2 ^ 64 * toNat xs) -
                    (y + 2 ^ 64 * toNat ys) - c := by omega
              simp only [toNat]
              rw [h9]
          _ = (2 ^ (64 * (x :: xs).length) + toNat (x :: xs) - toNat (y :: ys) - c) %
                2 ^ (64 * (x :: xs).length) := by rw [hpow]

/-- `operator-` wraps: the value of the difference is `(2^4096 + a - b) % 2^4096`
(two's-complement wraparound on underflow). -/
theorem subWords_toNat (xs ys : List Nat) (hx : wordsValid xs) (hy : wordsValid ys) :
    toNat (subWords xs ys) = (W + toNat xs - toNat ys) % W := by
  have h := subLoop_toNat xs ys 0 (by rw [hx.1, hy.1]) (by omega) hx.2 hy.2
  rw [subWords, h, hx.1]
  norm_num [W]

/-- The inner multiplication loop accumulates `w * bs + rs + c` modulo
`2^(64·len rs)` (only the first `len rs` words of `bs` are read, which is
accounted for by the modulus). -/
theorem mulInner_toNat (w : Nat) : ∀ (rs bs : List Nat) (c : Nat),
    rs.length ≤ bs.length →
    toNat (mulInner w bs rs c) = (w * toNat bs + toNat rs + c) % 2 ^ (64 * rs.length) := by
  intro rs
  induction rs with
  | nil =>
    intro bs c _
    cases bs <;> simp [mulInner, toNat, Nat.mod_one]
  | cons r rs ih =>
    intro bs c hlen
    cases bs with
    | nil => simp at hlen
    | cons b bs =>
      have hlen' : rs.length ≤ bs.length := by simpa using hlen
      have hpow : 2 ^ (64 * ((r :: rs).length)) = 2 ^ 64 * 2 ^ (64 * rs.length) := by
        rw [← Nat.pow_add]; congr 1; simp; ring
      calc toNat (mulInner w (b :: bs) (r :: rs) c)
          = (w * b + r + c) % 2 ^ 64 + 2 ^ 64 *
              ((w * toNat bs + toNat rs + (w * b + r + c) / 2 ^ 64) % 2 ^ (64 * rs.length)) := by
            simp only [mulInner, toNat]
            rw [ih bs _ hlen']
        _ = ((w * b + r + c) % 2 ^ 64 +
              2 ^ 64 * (w * toNat bs + toNat rs + (w * b + r + c) / 2 ^ 64)) %
              (2 ^ 64 * 2 ^ (64 * rs.length)) :=
            (digit_mod _ _ _ _ (Nat.mod_lt _ (by positivity))).symm
        _ = ((w * b + r + c) % 2 ^ 64 + 2 ^ 64 * ((w * b + r + c) / 2 ^ 64) +
              (w * (2 ^ 64 * toNat bs) + 2 ^ 64 * toNat rs)) %
              (2 ^ 64 * 2 ^ (64 * rs.length)) := by ring_nf
        _ = (w * toNat (b :: bs) + toNat (r :: rs) + c) % (2 ^ 64 * 2 ^ (64 * rs.length)) := by
            rw [Nat.mod_add_div]
            simp only [toNat]
            ring_nf
        _ = (w * toNat (b :: bs) + toNat (r :: rs) + c) % 2 ^ (64 * (r :: rs).length) := by
            rw [hpow]

theorem mulInner_length (w : Nat) : ∀ (rs bs : List Nat) (c : Nat),
    rs.length ≤ bs.length → (mulInner w bs rs c).length = rs.length := by
  intro rs
  induction rs with
  | nil => intro bs c _; cases bs <;> simp [mulInner]
  | cons r rs ih =>
    intro bs c hlen
    cases bs with
    | nil => simp at hlen
    | cons b bs => simp only [mulInner, List.length_cons]; rw [ih bs _ (by simpa using hlen)]

theorem mulInner_valid (w : Nat) : ∀ (rs bs : List Nat) (c : Nat),
    ∀ u ∈ mulInner w bs rs c, u < 2 ^ 64 := by
  intro rs
  induction rs with
  | nil => intro bs c u hu; cases bs <;> simp [mulInner] at hu
  | cons r rs ih =>
    intro bs c u hu
    cases bs with
    | nil => simp [mulInner] at hu
    | cons b bs =>
      simp only [mulInner, List.mem_cons] at hu
      rcases hu with h | h
      · subst h; exact Nat.mod_lt _ (by positivity)
      · exact ih bs _ u h

theorem mulInner_nil (w : Nat) (bs : List Nat) (c : Nat) : mulInner w bs [] c = [] := by
  cases bs <;> rfl

theorem toNat_replicate_zero : ∀ n, toNat (List.replicate n 0) = 0
  | 0 => rfl
  | n + 1 => by simp [List.replicate, toNat, toNat_replicate_zero n]

/-- The outer multiplication loop: starting from result segment `res`, the
final value is `as * b + res` modulo `2^(64·len res)` (truncating schoolbook
multiplication). -/
theorem mulAux_toNat : ∀ (as b res : List Nat),
    res.length ≤ b.length → (∀ w ∈ res, w < 2 ^ 64) →
    toNat (mulAux as b res) = (toNat as * toNat b + toNat res) % 2 ^ (64 * res.length) := by
  intro as
  induction as with
  | nil =>
    intro b res hlen hv
    simp only [mulAux, toNat, Nat.zero_mul, Nat.zero_add]
    exact (Nat.mod_eq_of_lt (toNat_lt res hv)).symm
  | cons a as ih =>
    intro b res hlen hv
    cases res with
    | nil =>
      simp only [mulAux, mulInner_nil, ite_self, toNat, List.length_nil, Nat.mul_zero,
        Nat.pow_zero, Nat.mod_one]
    | cons r0 res1 =>
      cases b with
      | nil => simp at hlen
      | cons b0 bs =>
        have hlen1 : res1.length ≤ bs.length := by simpa using hlen
        have hr0 : r0 < 2 ^ 64 := hv r0 (by simp)
        have hv1 : ∀ w ∈ res1, w < 2 ^ 64 := fun w hw => hv w (by simp [hw])
        have hpow : 2 ^ (64 * ((r0 :: res1).length)) = 2 ^ 64 * 2 ^ (64 * res1.length) := by
          rw [← Nat.pow_add]; congr 1; simp; ring
        by_cases ha : a = 0
        · subst ha
          calc toNat (mulAux (0 :: as) (b0 :: bs) (r0 :: res1))
              = r0 + 2 ^ 64 * ((toNat as * toNat (b0 :: bs) + toNat res1) %
                  2 ^ (64 * res1.length)) := by
                simp only [mulAux, if_pos rfl, toNat]
                rw [ih (b0 :: bs) res1 (by simp; omega) hv1]
                simp only [toNat]
            _ = (r0 + 2 ^ 64 * (toNat as * toNat (b0 :: bs) + toNat res1)) %
                  (2 ^ 64 * 2 ^ (64 * res1.length)) :=
                (digit_mod (2 ^ 64) (2 ^ (64 * res1.length)) r0
                  (toNat as * toNat (b0 :: bs) + toNat res1) hr0).symm
            _ = (toNat (0 :: as) * toNat (b0 :: bs) + toNat (r0 :: res1)) %
                  (2 ^ 64 * 2 ^ (64 * res1.length)) := by
                have h9 : r0 + 2 ^ 64 * (toNat as * toNat (b0 :: bs) + toNat res1) =
                    (0 + 2 ^ 64 * toNat as) * toNat (b0 :: bs) + (r0 + 2 ^ 64 * toNat res1) := by
                  ring
                rw [h9]
                simp only [toNat]
            _ = (toNat (0 :: as) * toNat (b0 :: bs) + toNat (r0 :: res1)) %
                  2 ^ (64 * (r0 :: res1).length) := by rw [hpow]
        · have hrest := mulInner_toNat a res1 bs ((a * b0 + r0 + 0) / 2 ^ 64) hlen1
          have hrlen := mulInner_length a res1 bs ((a * b0 + r0 + 0) / 2 ^ 64) hlen1
          have hrval := mulInner_valid a res1 bs ((a * b0 + r0 + 0) / 2 ^ 64)
          calc toNat (mulAux (a :: as) (b0 :: bs) (r0 :: res1))
              = (a * b0 + r0 + 0) % 2 ^ 64 + 2 ^ 64 *
                  toNat (mulAux as (b0 :: bs)
                    (mulInner a bs res1 ((a * b0 + r0 + 0) / 2 ^ 64))) := by
                simp only [mulAux, if_neg ha, mulInner, toNat]
            _ = (a * b0 + r0 + 0) % 2 ^ 64 + 2 ^ 64 *
                  ((toNat as * toNat (b0 :: bs) +
                    (a * toNat bs + toNat res1 + (a * b0 + r0 + 0) / 2 ^ 64) %
                      2 ^ (64 * res1.length)) % 2 ^ (64 * res1.length)) := by
                rw [ih (b0 :: bs) _ (by rw [hrlen]; simp; omega) hrval, hrest, hrlen]
            _ = (a * b0 + r0 + 0) % 2 ^ 64 + 2 ^ 64 *
                  ((toNat as * toNat (b0 :: bs) +
                    (a * toNat bs + toNat res1 + (a * b0 + r0 + 0) / 2 ^ 64)) %
                      2 ^ (64 * res1.length)) := by
                rw [Nat.add_mod_mod]
            _ = ((a * b0 + r0 + 0) % 2 ^ 64 + 2 ^ 64 *
                  (toNat as * toNat (b0 :: bs) +
                    (a * toNat bs + toNat res1 + (a * b0 + r0 + 0) / 2 ^ 64))) %
                  (2 ^ 64 * 2 ^ (64 * res1.length)) :=
                (digit_mod (2 ^ 64) (2 ^ (64 * res1.length)) _ _
                  (Nat.mod_lt _ (by positivity))).symm
            _ = ((a * b0 + r0 + 0) % 2 ^ 64 + 2 ^ 64 * ((a * b0 + r0 + 0) / 2 ^ 64) +
                  (2 ^ 64 * (toNat as * toNat (b0 :: bs)) + 2 ^ 64 * (a * toNat bs) +
                    2 ^ 64 * toNat res1)) % (2 ^ 64 * 2 ^ (64 * res1.length)) := by
                ring_nf
            _ = (toNat (a :: as) * toNat (b0 :: bs) + toNat (r0 :: res1)) %
                  (2 ^ 64 * 2 ^ (64 * res1.length)) := by
                rw [Nat.mod_add_div]
                simp only [toNat]
                ring_nf
            _ = (toNat (a :: as) * toNat (b0 :: bs) + toNat (r0 :: res1)) %
                  2 ^ (64 * (r0 :: res1).length) := by rw [hpow]

/-- `operator*` wraps: the value of the product is `(a * b) % 2^4096`
(partial products past the top word and the final carry are dropped, which
is exactly reduction modulo `2^4096`). -/
theorem mulWords_toNat (xs ys : List Nat) (hy : wordsValid ys) :
    toNat (mulWords xs ys) = (toNat xs * toNat ys) % W := by
  have h := mulAux_toNat xs ys (List.replicate 64 0)
    (by rw [List.length_replicate, hy.1]) (by intro w hw; simp at hw; omega)
  rw [mulWords, h, toNat_replicate_zero, List.length_replicate]
  norm_num [W]

/-! ### Value-level operations

From here on a `BigInt4096` is embedded as its value, a `Nat < W`; the word
loops above justify reading `operator+`, `operator-` and `operator*` as
`(· + ·) % W`, wrap-around subtraction and `(· * ·) % W`.  The shifts, division loop and the
number-theoretic routines below are translated directly from the source at
this granularity, with `% W` exactly where the code truncates to 64 words. -/

/-- `BigInt4096::operator<<`: word/bit-decomposed left shift.  Each result
word collects the correspondingly shifted source words; bits shifted past
the top word are lost, so the value is `a * 2^s` truncated to 4096 bits. -/
def shl (a s : Nat) : Nat := a * 2 ^ s % W

/-- `BigInt4096::operator>>`: word/bit-decomposed right shift toward the low
end; bits shifted past the bottom are lost, so the value is `a / 2^s`. -/
def shr (a s : Nat) : Nat := a / 2 ^ s

/-- Value of `BigInt4096::operator-` (wraparound subtraction, cf.
`subWords_toNat`). -/
def subV (a b : Nat) : Nat := (W + a - b) % W

/-- The loop of `BigInt4096::operator/`: restoring binary long division.
For bit index `i = 4095` down to `0` (the fuel argument is `i + 1`):
`current = current << 1` (a wrapping shift, hence `% W`), the next dividend
bit is OR'd into its low end (the low bit is zero after the shift, so OR is
`+`), and if `current ≥ divisor` the divisor is subtracted and quotient bit
`i` is set (`|=` on a still-zero bit, so `+ 2^i`).  State is
`(quotient, current)`. -/
def divLoop (a b : Nat) : Nat → Nat × Nat → Nat × Nat
  | 0, st => st
  | k + 1, (q, c) =>
    if b ≤ c * 2 % W + a / 2 ^ k % 2 then
      divLoop a b k (q + 2 ^ k, c * 2 % W + a / 2 ^ k % 2 - b)
    else
      divLoop a b k (q, c * 2 % W + a / 2 ^ k % 2)

/-- The loop of `BigInt4096::operator%`: same recurrence on `current` as
`divLoop`, without accumulating the quotient. -/
def remLoop (a b : Nat) : Nat → Nat → Nat
  | 0, c => c
  | k + 1, c =>
    if b ≤ c * 2 % W + a / 2 ^ k % 2 then
      remLoop a b k (c * 2 % W + a / 2 ^ k % 2 - b)
    else
      remLoop a b k (c * 2 % W + a / 2 ^ k % 2)

/-- Quotient as computed by the loop of `operator/` (all 4096 bit positions). -/
def quot (a b : Nat) : Nat := (divLoop a b 4096 (0, 0)).1

/-- Remainder as computed by the loop of `operator%` (all 4096 bit positions). -/
def rem (a b : Nat) : Nat := remLoop a b 4096 0

/-- `BigInt4096::operator/` - throws (`none`) on a zero divisor. -/
def divOp (a b : Nat) : Option Nat := if b = 0 then none else some (quot a b)

/-- `BigInt4096::operator%` - throws (`none`) on a zero divisor. -/
def modOp (a b : Nat) : Option Nat := if b = 0 then none else some (rem a b)

/-- Invariant of the restoring division loop: starting from remainder `c`
with `k` dividend bits left, the loop divides `c * 2^k + (a mod 2^k)` by `b`,
adding the quotient to the accumulator.  The hypotheses `c < b` and
`c ≤ a / 2^k` hold on the real path; the latter shows the wrapping shift
`current << 1` never actually loses a bit for in-range dividends. -/
theorem divLoop_spec (a b : Nat) (ha : a < W) (hb : 0 < b) :
    ∀ (k : Nat) (q c : Nat), c < b → c ≤ a / 2 ^ k →
    divLoop a b k (q, c) =
      (q + (c * 2 ^ k + a % 2 ^ k) / b, (c * 2 ^ k + a % 2 ^ k) % b) := by
  intro k
  induction k with
  | zero =>
    intro q c hcb hca
    simp [divLoop, Nat.mod_one, Nat.div_eq_of_lt hcb, Nat.mod_eq_of_lt hcb]
  | succ k ih =>
    intro q c hcb hca
    have hdd : a / 2 ^ (k + 1) = a / 2 ^ k / 2 := by
      rw [Nat.pow_succ, ← Nat.div_div_eq_div_mul]
    rw [hdd] at hca
    have h1 : 2 * (a / 2 ^ k / 2) + a / 2 ^ k % 2 = a / 2 ^ k := Nat.div_add_mod _ 2
    have hca' : c * 2 + a / 2 ^ k % 2 ≤ a / 2 ^ k := by omega
    have hw : c * 2 % W = c * 2 := by
      have h2 : a / 2 ^ k ≤ a := Nat.div_le_self a (2 ^ k)
      have h3 : a < W := ha
      exact Nat.mod_eq_of_lt (by omega)
    have hmod : a % (2 ^ k * 2) = 2 ^ k * (a / 2 ^ k % 2) + a % 2 ^ k := by
      have e3 : a % (2 ^ k * 2) / 2 ^ k = a / 2 ^ k % 2 :=
        Nat.mod_mul_right_div_self a (2 ^ k) 2
      have e2 : a % (2 ^ k * 2) % 2 ^ k = a % 2 ^ k :=
        Nat.mod_mod_of_dvd a (Dvd.intro 2 rfl)
      have e1 : 2 ^ k * (a % (2 ^ k * 2) / 2 ^ k) + a % (2 ^ k * 2) % 2 ^ k =
          a % (2 ^ k * 2) := Nat.div_add_mod _ (2 ^ k)
      rw [e3, e2] at e1
      exact e1.symm
    simp only [divLoop, hw]
    by_cases hif : b ≤ c * 2 + a / 2 ^ k % 2
    · rw [if_pos hif]
      rw [ih (q + 2 ^ k) (c * 2 + a / 2 ^ k % 2 - b) (by omega) (by omega)]
      have hV : c * 2 ^ (k + 1) + a % 2 ^ (k + 1) =
          ((c * 2 + a / 2 ^ k % 2 - b) * 2 ^ k + a % 2 ^ k) + b * 2 ^ k := by
        calc c * 2 ^ (k + 1) + a % 2 ^ (k + 1)
            = c * (2 ^ k * 2) + (2 ^ k * (a / 2 ^ k % 2) + a % 2 ^ k) := by
              rw [Nat.pow_succ, hmod]
          _ = (c * 2 + a / 2 ^ k % 2) * 2 ^ k + a % 2 ^ k := by ring
          _ = ((c * 2 + a / 2 ^ k % 2 - b) + b) * 2 ^ k + a % 2 ^ k := by
              congr 2
              omega
          _ = ((c * 2 + a / 2 ^ k % 2 - b) * 2 ^ k + a % 2 ^ k) + b * 2 ^ k := by ring
      rw [hV, Nat.add_mul_div_left _ _ hb, Nat.add_mul_mod_self_left]
      refine Prod.ext ?_ rfl
      simp only
      omega
    · rw [if_neg hif]
      rw [ih q (c * 2 + a / 2 ^ k % 2) (by omega) hca']
      have hV : c * 2 ^ (k + 1) + a % 2 ^ (k + 1) =
          (c * 2 + a / 2 ^ k % 2) * 2 ^ k + a % 2 ^ k := by
        calc c * 2 ^ (k + 1) + a % 2 ^ (k + 1)
            = c * (2 ^ k * 2) + (2 ^ k * (a / 2 ^ k % 2) + a % 2 ^ k) := by
              rw [Nat.pow_succ, hmod]
          _ = (c * 2 + a / 2 ^ k % 2) * 2 ^ k + a % 2 ^ k := by ring
      rw [hV]

/-- `operator%` runs the same `current` recurrence as `operator/`. -/
theorem remLoop_eq_divLoop (a b : Nat) : ∀ (k : Nat) (q c : Nat),
    remLoop a b k c = (divLoop a b k (q, c)).2 := by
  intro k
  induction k with
  | zero => intro q c; rfl
  | succ k ih =>
    intro q c
    simp only [remLoop, divLoop]
    by_cases h : b ≤ c * 2 % W + a / 2 ^ k % 2
    · rw [if_pos h, if_pos h, ih]
    · rw [if_neg h, if_neg h, ih]

/-- The long-division quotient agrees with mathematical division for every
in-range dividend and nonzero divisor. -/
theorem quot_eq (a b : Nat) (ha : a < W) (hb : 0 < b) : quot a b = a / b := by
  unfold quot
  rw [divLoop_spec a b ha hb 4096 0 0 hb (Nat.zero_le _)]
  have haW : a % 2 ^ 4096 = a := Nat.mod_eq_of_lt ha
  simp [haW]

/-- The long-division remainder agrees with mathematical `mod` for every
in-range dividend and nonzero divisor. -/
theorem rem_eq (a b : Nat) (ha : a < W) (hb : 0 < b) : rem a b = a % b := by
  unfold rem
  rw [remLoop_eq_divLoop a b 4096 0 0,
    divLoop_spec a b ha hb 4096 0 0 hb (Nat.zero_le _)]
  have haW : a % 2 ^ 4096 = a := Nat.mod_eq_of_lt ha
  simp [haW]

/-- The `while (exp != 0)` loop of `BigInt4096::modExp` (square-and-multiply,
least-significant exponent bit first).  Per iteration, in source order: if the
low exponent bit is set, `result = (result * base) % mod`; `exp = exp >> 1`;
`base = (base * base) % mod`.  The `*` is the wrapping `operator*` (`% W`) and
the `%` is the long-division `operator%` (`rem`).  The loop variant is `exp`
halving to zero; fuel `4096` is exact for any `exp < 2^4096` (every
`BigInt4096` exponent). -/
def modExpLoop (m : Nat) : Nat → Nat → Nat → Nat → Nat
  | 0, _, _, result => result
  | fuel + 1, base, e, result =>
    if e = 0 then result
    else
      modExpLoop m fuel (rem (base * base % W) m) (e / 2)
        (if e % 2 = 1 then rem (result * base % W) m else result)

/-- Body of `BigInt4096::modExp` after the zero-modulus check:
`result = 1; base %= mod;` then the square-and-multiply loop. -/
def modExpC (b e m : Nat) : Nat := modExpLoop m 4096 (rem b m) e 1

/-- `BigInt4096::modExp` — throws (`none`) when the modulus is zero. -/
def modExp (b e m : Nat) : Option Nat :=
  if m = 0 then none else some (modExpC b e m)

/-- Invariant of the square-and-multiply loop: as long as `base` and
`result` are reduced and `(m-1)^2` fits in 4096 bits (so the wrapping
`operator*` never actually wraps), the loop computes
`result * base^e mod m`. -/
theorem modExpLoop_spec (m : Nat) (hm : 0 < m) (hmW : (m - 1) * (m - 1) < W) :
    ∀ (fuel base e result : Nat), e < 2 ^ fuel → base < m → result < m →
    modExpLoop m fuel base e result = result * base ^ e % m := by
  intro fuel
  induction fuel with
  | zero =>
    intro base e result he hb hr
    have he0 : e = 0 := Nat.lt_one_iff.mp (by simpa using he)
    subst he0
    simp [modExpLoop, Nat.mod_eq_of_lt hr]
  | succ fuel ih =>
    intro base e result he hb hr
    by_cases he0 : e = 0
    · subst he0
      simp [modExpLoop, Nat.mod_eq_of_lt hr]
    · have hWb : base * base % W = base * base := by
        have h1 : base * base ≤ (m - 1) * (m - 1) := Nat.mul_le_mul (by omega) (by omega)
        exact Nat.mod_eq_of_lt (by omega)
      have hremb : rem (base * base % W) m = base * base % m := by
        rw [hWb]
        have h1 : base * base ≤ (m - 1) * (m - 1) := Nat.mul_le_mul (by omega) (by omega)
        exact rem_eq _ _ (by omega) hm
      have hWr : result * base % W = result * base := by
        have h1 : result * base ≤ (m - 1) * (m - 1) := Nat.mul_le_mul (by omega) (by omega)
        exact Nat.mod_eq_of_lt (by omega)
      have hremr : rem (result * base % W) m = result * base % m := by
        rw [hWr]
        have h1 : result * base ≤ (m - 1) * (m - 1) := Nat.mul_le_mul (by omega) (by omega)
        exact rem_eq _ _ (by omega) hm
      have hp : 2 ^ (fuel + 1) = 2 ^ fuel * 2 := Nat.pow_succ 2 fuel
      have he2 : e / 2 < 2 ^ fuel := by omega
      simp only [modExpLoop, if_neg he0]
      by_cases hodd : e % 2 = 1
      · rw [if_pos hodd, hremb, hremr,
          ih (base * base % m) (e / 2) (result * base % m) he2 (Nat.mod_lt _ hm)
            (Nat.mod_lt _ hm)]
        calc result * base % m * (base * base % m) ^ (e / 2) % m
            = result * base % m % m * ((base * base % m) ^ (e / 2) % m) % m := by
              rw [← Nat.mul_mod]
          _ = result * base % m * ((base * base) ^ (e / 2) % m) % m := by
              rw [Nat.mod_mod_of_dvd _ (dvd_refl m), ← Nat.pow_mod]
          _ = result * base * (base * base) ^ (e / 2) % m := by
              rw [← Nat.mul_mod]
          _ = result * base ^ e % m := by
              have h2 : result * base * (base * base) ^ (e / 2) = result * base ^ e := by
                conv_rhs => rw [show e = 2 * (e / 2) + 1 by omega]
                rw [pow_succ, show base * base = base ^ 2 from (pow_two base).symm, ← pow_mul]
                ring
              rw [h2]
      · rw [if_neg hodd, hremb,
          ih (base * base % m) (e / 2) result he2 (Nat.mod_lt _ hm) hr]
        calc result * (base * base % m) ^ (e / 2) % m
            = result % m * ((base * base % m) ^ (e / 2) % m) % m := by
              rw [← Nat.mul_mod]
          _ = result % m * ((base * base) ^ (e / 2) % m) % m := by
              rw [← Nat.pow_mod]
          _ = result * (base * base) ^ (e / 2) % m := by
              rw [← Nat.mul_mod]
          _ = result * base ^ e % m := by
              have h2 : result * (base * base) ^ (e / 2) = result * base ^ e := by
                conv_rhs => rw [show e = 2 * (e / 2) by omega]
                rw [show base * base = base ^ 2 from (pow_two base).symm, ← pow_mul]
              rw [h2]

/-- For a nonzero modulus whose square fits in 4096 bits, `modExp` computes
`b^e mod m` (the wrapping multiply never interferes). -/
theorem modExpC_eq (b e m : Nat) (hb : b < W) (he : e < W) (hm : 1 < m)
    (hmB : m ≤ 2 ^ 2048) : modExpC b e m = b ^ e % m := by
  have hm0 : 0 < m := by omega
  have hmW : (m - 1) * (m - 1) < W := by
    calc (m - 1) * (m - 1) ≤ (2 ^ 2048 - 1) * (2 ^ 2048 - 1) :=
          Nat.mul_le_mul (by omega) (by omega)
      _ < 2 ^ 2048 * 2 ^ 2048 := by
          have h0 : 0 < 2 ^ 2048 := Nat.pos_pow_of_pos _ (by omega)
          have h1 : (2 ^ 2048 - 1) * (2 ^ 2048 - 1) ≤ (2 ^ 2048 - 1) * 2 ^ 2048 :=
            Nat.mul_le_mul_left _ (by omega)
          have h2 : (2 ^ 2048 - 1) * 2 ^ 2048 < 2 ^ 2048 * 2 ^ 2048 :=
            Nat.mul_lt_mul_of_lt_of_le (by omega) (Nat.le_refl _) h0
          omega
      _ = W := by rw [W, ← Nat.pow_add]
  unfold modExpC
  rw [rem_eq b m hb hm0,
    modExpLoop_spec m hm0 hmW 4096 (b % m) e 1 he (Nat.mod_lt _ hm0) (by omega),
    Nat.one_mul, ← Nat.pow_mod]

/-! ### Miller-Rabin primality test (`BigInt4096::isPrime`) -/

/-- The fixed witness table `basePrimes[5] = {2, 3, 5, 7, 11}` of `isPrime`. -/
def basePrimes : List Nat := [2, 3, 5, 7, 11]

/-- The `while ((d & 1) == 0) { d >>= 1; ++r; }` decomposition loop of
`isPrime`, producing `(d, r)` with `n - 1 = 2^r * d`.  Fueled with 4096
(enough for any `BigInt4096` value); the extra `0 < d` guard only rules out
the diverging run on `d = 0`, which `isPrime` never reaches (there
`d = n - 1 ≥ 4`). -/
def decompose : Nat → Nat → Nat → Nat × Nat
  | 0, d, r => (d, r)
  | fuel + 1, d, r =>
    if d % 2 = 0 ∧ 0 < d then decompose fuel (d / 2) (r + 1) else (d, r)

/-- The inner witness loop of `isPrime` (`for j = 1; j < r; ++j`), run
`r - 1` times: `x = modExp(x, 2, n)`, and the witness passes if some
iterate equals `n - 1`.  The modulus `n ≥ 5` is nonzero at every call site,
so `modExp`'s zero-modulus throw cannot fire and the non-throwing core
`modExpC` is called. -/
def mrInner (n : Nat) : Nat → Nat → Bool
  | 0, _ => false
  | j + 1, x =>
    if modExpC x 2 n = subV n 1 then true
    else mrInner n j (modExpC x 2 n)

/-- The outer witness loop of `isPrime` (`for i = 0; i < rounds; ++i`),
iterating over the list of indices `i`.  The access `basePrimes[i]` is
modelled by `basePrimes[i]?`; an out-of-bounds index (possible when
`rounds > 5`) yields `none`. -/
def mrOuter (n d r : Nat) : List Nat → Option Bool
  | [] => some true
  | i :: rest =>
    match basePrimes[i]? with
    | none => none
    | some a =>
      if modExpC a d n = 1 ∨ modExpC a d n = subV n 1 then mrOuter n d r rest
      else if mrInner n (r - 1) (modExpC a d n) then mrOuter n d r rest
      else some false

/-- `BigInt4096::isPrime(n, rounds)` (the C++ `rounds` parameter is a signed
`int`, hence `Int`; the loop `for (int i = 0; i < rounds; ++i)` runs
`max rounds 0 = rounds.toNat` iterations when no early exit occurs). -/
def isPrime (n : Nat) (rounds : Int) : Option Bool :=
  if n ≤ 1 then some false
  else if n = 2 ∨ n = 3 then some true
  else if n % 2 = 0 then some false
  else
    mrOuter n (decompose 4096 (subV n 1) 0).1 (decompose 4096 (subV n 1) 0).2
      (List.range rounds.toNat)

/-! #### Reference version over plain `Nat` arithmetic

`isPrimeNat` mirrors `isPrime` step for step, with `modExpC` replaced by a
plain-`Nat` square-and-multiply `powModC` (no wrapping `% W`, no
long-division loop) and the wrap-around `n - 1` by plain `n - 1`.  It is
proved equal to `isPrime` for `n ≤ 2^2048` and exists so that concrete runs
of `isPrime` can be evaluated by `decide` without unfolding the 4096-step
division loops. -/

def powModLoop (m : Nat) : Nat → Nat → Nat → Nat → Nat
  | 0, _, _, result => result
  | fuel + 1, base, e, result =>
    if e = 0 then result
    else
      powModLoop m fuel (base * base % m) (e / 2)
        (if e % 2 = 1 then result * base % m else result)

def powModC (b e m : Nat) : Nat := powModLoop m 4096 (b % m) e 1

def mrInnerNat (n : Nat) : Nat → Nat → Bool
  | 0, _ => false
  | j + 1, x =>
    if x * x % n = n - 1 then true
    else mrInnerNat n j (x * x % n)

def mrOuterNat (n d r : Nat) : List Nat → Option Bool
  | [] => some true
  | i :: rest =>
    match basePrimes[i]? with
    | none => none
    | some a =>
      if powModC a d n = 1 ∨ powModC a d n = n - 1 then mrOuterNat n d r rest
      else if mrInnerNat n (r - 1) (powModC a d n) then mrOuterNat n d r rest
      else some false

def isPrimeNat (n : Nat) (rounds : Int) : Option Bool :=
  if n ≤ 1 then some false
  else if n = 2 ∨ n = 3 then some true
  else if n % 2 = 0 then some false
  else
    mrOuterNat n (decompose 4096 (n - 1) 0).1 (decompose 4096 (n - 1) 0).2
      (List.range rounds.toNat)

theorem lt_W_of_le {n : Nat} (h : n ≤ 2 ^ 2048) : n < W := by
  have h2 : (2:Nat) ^ 2048 < 2 ^ 4096 := Nat.pow_lt_pow_right (by omega) (by omega)
  unfold W
  omega

/-- Wrap-around subtraction agrees with truncated subtraction when no
underflow occurs. -/
theorem subV_eq (a b : Nat) (hb : b ≤ a) (ha : a < W) : subV a b = a - b := by
  unfold subV
  rw [show W + a - b = a - b + W by omega, Nat.add_mod_right]
  exact Nat.mod_eq_of_lt (by omega)

theorem sq_pred_lt_W {m : Nat} (hmB : m ≤ 2 ^ 2048) : (m - 1) * (m - 1) < W := by
  calc (m - 1) * (m - 1) ≤ (2 ^ 2048 - 1) * (2 ^ 2048 - 1) :=
        Nat.mul_le_mul (by omega) (by omega)
    _ < 2 ^ 2048 * 2 ^ 2048 := by
        have h0 : 0 < 2 ^ 2048 := Nat.pos_pow_of_pos _ (by omega)
        have h1 : (2 ^ 2048 - 1) * (2 ^ 2048 - 1) ≤ (2 ^ 2048 - 1) * 2 ^ 2048 :=
          Nat.mul_le_mul_left _ (by omega)
        have h2 : (2 ^ 2048 - 1) * 2 ^ 2048 < 2 ^ 2048 * 2 ^ 2048 :=
          Nat.mul_lt_mul_of_lt_of_le (by omega) (Nat.le_refl _) h0
        omega
    _ = W := by rw [W, ← Nat.pow_add]

/-- Under the no-wrap conditions, the `modExp` loop coincides with the
plain-`Nat` square-and-multiply loop. -/
theorem modExpLoop_eq_powModLoop (m : Nat) (hm : 0 < m)
    (hmW : (m - 1) * (m - 1) < W) :
    ∀ (fuel base e result : Nat), base < m → result < m →
    modExpLoop m fuel base e result = powModLoop m fuel base e result := by
  intro fuel
  induction fuel with
  | zero => intro base e result _ _; rfl
  | succ fuel ih =>
    intro base e result hb hr
    simp only [modExpLoop, powModLoop]
    by_cases he0 : e = 0
    · rw [if_pos he0, if_pos he0]
    · rw [if_neg he0, if_neg he0]
      have hremb : rem (base * base % W) m = base * base % m := by
        have h1 : base * base ≤ (m - 1) * (m - 1) := Nat.mul_le_mul (by omega) (by omega)
        rw [Nat.mod_eq_of_lt (by omega)]
        exact rem_eq _ _ (by omega) hm
      have hremr : rem (result * base % W) m = result * base % m := by
        have h1 : result * base ≤ (m - 1) * (m - 1) := Nat.mul_le_mul (by omega) (by omega)
        rw [Nat.mod_eq_of_lt (by omega)]
        exact rem_eq _ _ (by omega) hm
      rw [hremb, hremr]
      by_cases hodd : e % 2 = 1
      · rw [if_pos hodd]
        exact ih _ _ _ (Nat.mod_lt _ hm) (Nat.mod_lt _ hm)
      · rw [if_neg hodd]
        exact ih _ _ _ (Nat.mod_lt _ hm) hr

theorem modExpC_eq_powModC (b e m : Nat) (hb : b < W) (hm : 1 < m)
    (hmB : m ≤ 2 ^ 2048) : modExpC b e m = powModC b e m := by
  have hm0 : 0 < m := by omega
  unfold modExpC powModC
  rw [rem_eq b m hb hm0]
  exact modExpLoop_eq_powModLoop m hm0 (sq_pred_lt_W hmB) 4096 (b % m) e 1
    (Nat.mod_lt _ hm0) (by omega)

theorem decompose_fst_le : ∀ (fuel d r : Nat), (decompose fuel d r).1 ≤ d := by
  intro fuel
  induction fuel with
  | zero => intro d r; exact Nat.le_refl d
  | succ fuel ih =>
    intro d r
    simp only [decompose]
    by_cases h : d % 2 = 0 ∧ 0 < d
    · rw [if_pos h]
      exact Nat.le_trans (ih (d / 2) (r + 1)) (Nat.div_le_self d 2)
    · rw [if_neg h]

theorem mrInner_eq (n : Nat) (hn : 1 < n) (hnB : n ≤ 2 ^ 2048) :
    ∀ (k x : Nat), x < n → mrInner n k x = mrInnerNat n k x := by
  intro k
  induction k with
  | zero => intro x _; rfl
  | succ k ih =>
    intro x hx
    have hxW : x < W := lt_W_of_le (by omega)
    have h2W : (2:Nat) < W := lt_W_of_le (by
      calc (2:Nat) = 2 ^ 1 := (pow_one 2).symm
        _ ≤ 2 ^ 2048 := Nat.pow_le_pow_right (by omega) (by omega))
    have hsq : modExpC x 2 n = x * x % n := by
      rw [modExpC_eq x 2 n hxW h2W hn hnB, pow_two]
    have hsub : subV n 1 = n - 1 := subV_eq n 1 (by omega) (lt_W_of_le hnB)
    simp only [mrInner, mrInnerNat, hsq, hsub]
    by_cases h : x * x % n = n - 1
    · rw [if_pos h, if_pos h]
    · rw [if_neg h, if_neg h]
      exact ih _ (Nat.mod_lt _ (by omega))

theorem mrOuter_eq (n d r : Nat) (hn : 1 < n) (hnB : n ≤ 2 ^ 2048) (hd : d < W) :
    ∀ l, mrOuter n d r l = mrOuterNat n d r l := by
  intro l
  induction l with
  | nil => rfl
  | cons i rest ih =>
    simp only [mrOuter, mrOuterNat]
    cases hgi : basePrimes[i]? with
    | none => simp [hgi]
    | some a =>
      have ha : a ∈ basePrimes := by
        have := List.getElem?_eq_some_iff.mp hgi
        obtain ⟨hlt, hget⟩ := this
        exact hget ▸ List.getElem_mem hlt
      have haW : a < W := by
        have h11 : a ≤ 11 := by
          simp only [basePrimes, List.mem_cons, List.not_mem_nil, or_false] at ha
          omega
        exact lt_W_of_le (by omega)
      have hval := modExpC_eq a d n haW hd hn hnB
      have hx := modExpC_eq_powModC a d n haW hn hnB
      have hbound : powModC a d n < n := by
        rw [← hx, hval]
        exact Nat.mod_lt _ (by omega)
      have hsub : subV n 1 = n - 1 := subV_eq n 1 (by omega) (lt_W_of_le hnB)
      simp only [hgi, hx, hsub]
      by_cases h1 : powModC a d n = 1 ∨ powModC a d n = n - 1
      · rw [if_pos h1, if_pos h1]
        exact ih
      · rw [if_neg h1, if_neg h1,
          mrInner_eq n hn hnB (r - 1) _ hbound]
        by_cases h2 : mrInnerNat n (r - 1) (powModC a d n)
        · rw [if_pos h2, if_pos h2]
          exact ih
        · rw [if_neg h2, if_neg h2]

/-- For every `n ≤ 2^2048` (in particular every concrete test value),
`isPrime` agrees with the plain-`Nat` reference `isPrimeNat`. -/
theorem isPrime_eq_ref (n : Nat) (rounds : Int) (hnB : n ≤ 2 ^ 2048) :
    isPrime n rounds = isPrimeNat n rounds := by
  unfold isPrime isPrimeNat
  by_cases h1 : n ≤ 1
  · rw [if_pos h1, if_pos h1]
  · rw [if_neg h1, if_neg h1]
    by_cases h2 : n = 2 ∨ n = 3
    · rw [if_pos h2, if_pos h2]
    · rw [if_neg h2, if_neg h2]
      by_cases h3 : n % 2 = 0
      · rw [if_pos h3, if_pos h3]
      · rw [if_neg h3, if_neg h3]
        have hn5 : 5 ≤ n := by omega
        have hnW : n < W := lt_W_of_le hnB
        have hsub : subV n 1 = n - 1 := subV_eq n 1 (by omega) hnW
        rw [hsub]
        exact mrOuter_eq n _ _ (by omega) hnB
          (by
            have := decompose_fst_le 4096 (n - 1) 0
            omega)
          (List.range rounds.toNat)

/-! ### Decimal text conversion -/

/-- Digit character emitted by the decimal renderer: `'0' + digit`. -/
def chr (d : Nat) : Char := Char.ofNat (48 + d)

/-- The `while (temp != zero)` loop of the stream output operator: emit
`temp % ten` as a character and continue with `temp / ten` (both via the
long-division operators).  Digits are produced least-significant first.
Fuel 4096 covers any `BigInt4096` value (the value at least halves each
iteration). -/
def renderLoop : Nat → Nat → List Char
  | 0, _ => []
  | fuel + 1, t =>
    if t = 0 then []
    else chr (rem t 10) :: renderLoop fuel (quot t 10)

/-- `operator<<(std::ostream&, const BigInt4096&)`: zero prints as `"0"`,
otherwise the collected digits are reversed (most significant first). -/
def render (x : Nat) : List Char :=
  if x = 0 then ['0'] else (renderLoop 4096 x).reverse

/-- `BigInt4096(const std::string&)`: fold left to right over the characters;
any non-digit is skipped; for a digit, `value = value * 10 + digit` with the
wrapping `operator*=` and `operator+=`. -/
def parse (s : List Char) : Nat :=
  s.foldl (fun acc c =>
    if c < '0' ∨ '9' < c then acc
    else (acc * 10 % W + (c.toNat - 48)) % W) 0

theorem chr_digit : ∀ d : Nat, d < 10 →
    (¬(chr d < '0' ∨ '9' < chr d)) ∧ (chr d).toNat - 48 = d ∧ (d ≠ 0 → chr d ≠ '0') := by
  decide

/-- The render loop produces exactly the base-10 digit characters,
least-significant first. -/
theorem renderLoop_digits : ∀ (fuel t : Nat), t < 2 ^ fuel → t < W →
    renderLoop fuel t = (Nat.digits 10 t).map chr := by
  intro fuel
  induction fuel with
  | zero =>
    intro t ht _
    have ht0 : t = 0 := Nat.lt_one_iff.mp (by simpa using ht)
    subst ht0
    simp [renderLoop]
  | succ fuel ih =>
    intro t ht htW
    by_cases ht0 : t = 0
    · subst ht0
      simp [renderLoop]
    · have h10 : rem t 10 = t % 10 := rem_eq t 10 htW (by omega)
      have hq : quot t 10 = t / 10 := quot_eq t 10 htW (by omega)
      have hpos : 0 < 2 ^ fuel := Nat.pos_pow_of_pos _ (by omega)
      have hp : 2 ^ (fuel + 1) = 2 ^ fuel * 2 := Nat.pow_succ 2 fuel
      have hlt : t / 10 < 2 ^ fuel := by omega
      have hlt2 : t / 10 < W := by
        have := Nat.div_le_self t 10
        omega
      simp only [renderLoop, if_neg ht0]
      rw [h10, hq, ih (t / 10) hlt hlt2,
        Nat.digits_def' (by omega : (1:Nat) < 10) (Nat.pos_of_ne_zero ht0)]
      exact (List.map_cons chr _ _).symm

/-- Parsing the reversed digit-character list recovers the number (Horner
evaluation; no intermediate value reaches `W`, so the wrapping `% W` of the
parser never truncates). -/
theorem parse_rev_digits : ∀ (ds : List Nat), (∀ d ∈ ds, d < 10) →
    Nat.ofDigits 10 ds < W →
    parse ((ds.map chr).reverse) = Nat.ofDigits 10 ds := by
  intro ds
  induction ds with
  | nil =>
    intro _ _
    simp [parse, Nat.ofDigits_nil]
  | cons d ds ih =>
    intro h hlt
    have hd : d < 10 := h d (by simp)
    have hds : ∀ x ∈ ds, x < 10 := fun x hx => h x (by simp [hx])
    have hofd : Nat.ofDigits 10 (d :: ds) = d + 10 * Nat.ofDigits 10 ds := by
      rw [Nat.ofDigits_cons]
    rw [hofd] at hlt ⊢
    have hV : Nat.ofDigits 10 ds < W := by omega
    have hstep : parse (((d :: ds).map chr).reverse) =
        (parse ((ds.map chr).reverse) * 10 % W + ((chr d).toNat - 48)) % W := by
      simp only [List.map_cons, List.reverse_cons, parse, List.foldl_append, List.foldl_cons,
        List.foldl_nil]
      rw [if_neg (chr_digit d hd).1]
    rw [hstep, ih hds hV, (chr_digit d hd).2.1]
    have hm1 : Nat.ofDigits 10 ds * 10 % W = Nat.ofDigits 10 ds * 10 :=
      Nat.mod_eq_of_lt (by omega)
    rw [hm1]
    rw [Nat.mod_eq_of_lt (by omega)]
    omega

/-! ### Claim theorems -/

theorem le_pow2048_small {n : Nat} (h : n ≤ 16384) : n ≤ 2 ^ 2048 := by
  have h14 : (2:Nat) ^ 14 ≤ 2 ^ 2048 := Nat.pow_le_pow_right (by omega) (by omega)
  have he : (2:Nat) ^ 14 = 16384 := by norm_num
  omega

/-- C3: for every `a` and every `b ≠ 0`, `a == (a / b) * b + (a % b)` and
`0 ≤ a % b < b` (the lower bound is inherent to `Nat`). -/
theorem C3_division_identity (a b : Nat) (ha : a < W) (hb : 0 < b) :
    divOp a b = some (quot a b) ∧ modOp a b = some (rem a b) ∧
    quot a b * b + rem a b = a ∧ rem a b < b := by
  refine ⟨?_, ?_, ?_, ?_⟩
  · unfold divOp
    rw [if_neg (by omega)]
  · unfold modOp
    rw [if_neg (by omega)]
  · rw [quot_eq a b ha hb, rem_eq a b ha hb, Nat.mul_comm]
    exact Nat.div_add_mod a b
  · rw [rem_eq a b ha hb]
    exact Nat.mod_lt _ hb

theorem C3_division_identity_witness :
    (100:Nat) < W ∧ (0:Nat) < 7 ∧
    (divOp 100 7 = some (quot 100 7) ∧ modOp 100 7 = some (rem 100 7) ∧
      quot 100 7 * 7 + rem 100 7 = 100 ∧ rem 100 7 < 7) :=
  ⟨lt_W_of_le (le_pow2048_small (by omega)), by omega,
    C3_division_identity 100 7 (lt_W_of_le (le_pow2048_small (by omega))) (by omega)⟩

/-- C4: division, modulo and `modExp` fail (raise the single
`DivisionByZero` error, modelled by `none`) exactly when the divisor or
modulus is zero; no other input makes them fail. -/
theorem C4_division_by_zero (a b c e m : Nat) :
    (divOp a b = none ↔ b = 0) ∧ (modOp a b = none ↔ b = 0) ∧
    (modExp c e m = none ↔ m = 0) := by
  refine ⟨?_, ?_, ?_⟩
  · by_cases hb : b = 0 <;> simp [divOp, hb]
  · by_cases hb : b = 0 <;> simp [modOp, hb]
  · by_cases hm : m = 0 <;> simp [modExp, hm]

/-- C5: on well-formed 64-word arrays, `operator+`, `operator-` and
`operator*` compute the sum, difference and product modulo `2^4096`
(subtraction underflow wraps two's-complement style). -/
theorem C5_arith_wraps (xs ys : List Nat) (hx : wordsValid xs) (hy : wordsValid ys) :
    toNat (addWords xs ys) = (toNat xs + toNat ys) % W ∧
    toNat (subWords xs ys) = (W + toNat xs - toNat ys) % W ∧
    toNat (mulWords xs ys) = toNat xs * toNat ys % W :=
  ⟨addWords_toNat xs ys hx hy, subWords_toNat xs ys hx hy, mulWords_toNat xs ys hy⟩

theorem C5_arith_wraps_witness :
    wordsValid (List.replicate 64 (2 ^ 64 - 1)) ∧
    wordsValid (1 :: List.replicate 63 0) ∧
    (toNat (addWords (List.replicate 64 (2 ^ 64 - 1)) (1 :: List.replicate 63 0)) =
        (toNat (List.replicate 64 (2 ^ 64 - 1)) + toNat (1 :: List.replicate 63 0)) % W ∧
      toNat (subWords (List.replicate 64 (2 ^ 64 - 1)) (1 :: List.replicate 63 0)) =
        (W + toNat (List.replicate 64 (2 ^ 64 - 1)) - toNat (1 :: List.replicate 63 0)) % W ∧
      toNat (mulWords (List.replicate 64 (2 ^ 64 - 1)) (1 :: List.replicate 63 0)) =
        toNat (List.replicate 64 (2 ^ 64 - 1)) * toNat (1 :: List.replicate 63 0) % W) :=
  ⟨by decide, by decide, C5_arith_wraps _ _ (by decide) (by decide)⟩

/-- C7: a left shift losing no significant bits is undone by the matching
right shift, and shifting by at least 4096 bits yields zero. -/
theorem C7_shift_roundtrip (a s : Nat) :
    (a < 2 ^ (4096 - s) → shr (shl a s) s = a) ∧ (4096 ≤ s → shl a s = 0) := by
  constructor
  · intro ha
    by_cases hs : s ≤ 4096
    · have h1 : a * 2 ^ s < W := by
        calc a * 2 ^ s < 2 ^ (4096 - s) * 2 ^ s :=
              Nat.mul_lt_mul_of_lt_of_le ha (Nat.le_refl _) (Nat.pos_pow_of_pos _ (by omega))
          _ = 2 ^ 4096 := by rw [← Nat.pow_add]; congr 1; omega
      unfold shl shr
      rw [Nat.mod_eq_of_lt h1, Nat.mul_div_cancel _ (Nat.pos_pow_of_pos _ (by omega))]
    · have h0 : 4096 - s = 0 := by omega
      rw [h0] at ha
      have ha0 : a = 0 := by simpa using ha
      subst ha0
      simp [shl, shr]
  · intro hs
    unfold shl
    have h1 : a * 2 ^ s = a * 2 ^ (s - 4096) * W := by
      rw [W, Nat.mul_assoc, ← Nat.pow_add]
      congr 2
      omega
    rw [h1, Nat.mul_mod_left]

theorem C7_shift_roundtrip_witness :
    ((5:Nat) < 2 ^ (4096 - 100) ∧ shr (shl 5 100) 100 = 5) ∧
    (4096 ≤ 5000 ∧ shl 7 5000 = 0) :=
  ⟨⟨lt_of_lt_of_le (by omega) (Nat.pow_le_pow_right (by omega) (by omega) :
      (2:Nat) ^ 3 ≤ 2 ^ (4096 - 100)),
    (C7_shift_roundtrip 5 100).1 (lt_of_lt_of_le (by omega)
      (Nat.pow_le_pow_right (by omega) (by omega) : (2:Nat) ^ 3 ≤ 2 ^ (4096 - 100)))⟩,
   ⟨by omega, (C7_shift_roundtrip 7 5000).2 (by omega)⟩⟩

/-- C1: `isPrime(5, 5)` returns `false`, although 5 is prime and the spec
lists it among the values on which `isPrime` must return `true`.  The third
witness is `5 ≡ 0 (mod 5)`, so `modExp(5, d, 5) = 0`, which is neither `1`
nor `n - 1` and never becomes `n - 1` by squaring; the code therefore
declares 5 composite.  (All other values listed in the claim behave as
stated; this input refutes the claim, and the code - not the spec - is at
fault.) -/
theorem C1_isPrime_five_false : isPrime 5 5 = some false := by
  rw [isPrime_eq_ref 5 5 (le_pow2048_small (by omega))]
  decide

/-- C9: for `n ∈ {5, 7, 11}`, `isPrime(n, 5)` returns `false`: the witness
equal to `n` reduces to `0 mod n`, `modExp` yields `0`, which is neither `1`
nor `n - 1`, and no squaring step produces `n - 1`. -/
theorem C9_self_witness_false :
    isPrime 5 5 = some false ∧ isPrime 7 5 = some false ∧
    isPrime 11 5 = some false := by
  refine ⟨?_, ?_, ?_⟩ <;>
    · rw [isPrime_eq_ref _ _ (le_pow2048_small (by omega))]
      decide

/-- An in-bounds index list keeps the witness loop total. -/
theorem mrOuter_isSome (n d r : Nat) : ∀ l : List Nat, (∀ i ∈ l, i < 5) →
    (mrOuter n d r l).isSome = true := by
  intro l
  induction l with
  | nil => intro _; rfl
  | cons i rest ih =>
    intro h
    have hi : i < 5 := h i (by simp)
    have hlen : i < basePrimes.length := by
      simp only [basePrimes, List.length_cons, List.length_nil]
      omega
    have ha : basePrimes[i]? = some basePrimes[i] := List.getElem?_eq_getElem hlen
    simp only [mrOuter, ha]
    by_cases h1 : modExpC basePrimes[i] d n = 1 ∨ modExpC basePrimes[i] d n = subV n 1
    · rw [if_pos h1]
      exact ih (fun j hj => h j (by simp [hj]))
    · rw [if_neg h1]
      by_cases h2 : mrInner n (r - 1) (modExpC basePrimes[i] d n)
      · rw [if_pos h2]
        exact ih (fun j hj => h j (by simp [hj]))
      · rw [if_neg h2]
        rfl

/-- C8: with `0 ≤ rounds ≤ 5`, every access into the five-entry witness
table is in bounds, so `isPrime` is total (`some`) there; `rounds > 5` lies
outside this precondition. -/
theorem C8_witness_table_in_bounds (n : Nat) (rounds : Int) (hn : n < W)
    (h0 : 0 ≤ rounds) (h5 : rounds ≤ 5) : (isPrime n rounds).isSome = true := by
  unfold isPrime
  by_cases h1 : n ≤ 1
  · rw [if_pos h1]; rfl
  · rw [if_neg h1]
    by_cases h2 : n = 2 ∨ n = 3
    · rw [if_pos h2]; rfl
    · rw [if_neg h2]
      by_cases h3 : n % 2 = 0
      · rw [if_pos h3]; rfl
      · rw [if_neg h3]
        apply mrOuter_isSome
        intro i hi
        rw [List.mem_range] at hi
        omega

theorem C8_witness_table_in_bounds_witness :
    (9:Nat) < W ∧ (0:Int) ≤ 5 ∧ (5:Int) ≤ 5 ∧ (isPrime 9 5).isSome = true :=
  ⟨lt_W_of_le (le_pow2048_small (by omega)), by decide, by decide,
    C8_witness_table_in_bounds 9 5 (lt_W_of_le (le_pow2048_small (by omega)))
      (by decide) (by decide)⟩

/-- C10: with `rounds ≤ 0` the witness loop runs zero times, so every odd
`n ≥ 5` — including composites such as 9 — is declared prime. -/
theorem C10_nonpositive_rounds_true (n : Nat) (rounds : Int) (h5 : 5 ≤ n)
    (hodd : n % 2 = 1) (hr : rounds ≤ 0) : isPrime n rounds = some true := by
  unfold isPrime
  rw [if_neg (by omega), if_neg (by omega), if_neg (by omega),
    Int.toNat_of_nonpos hr]
  rfl

theorem C10_nonpositive_rounds_true_witness :
    (5:Nat) ≤ 9 ∧ (9:Nat) % 2 = 1 ∧ (-3:Int) ≤ 0 ∧ isPrime 9 (-3) = some true :=
  ⟨by omega, by omega, by decide,
    C10_nonpositive_rounds_true 9 (-3) (by omega) (by omega) (by decide)⟩

/-- C2 (amended): for every base `b < 2^4096`, exponent `e < 2^4096` and
modulus `m` with `1 < m ≤ 2^2048`, `modExp(b, e, m)` returns `b^e mod m`
without materializing the unreduced power.  The bound `m ≤ 2^2048` is needed
because the intermediate `(result * base)` and `(base * base)` products go
through the wrapping `operator*`; the bound `1 < m` excludes
`modExp(b, 0, 1) = 1 ≠ 0 = b^0 mod 1` (the spec's own instance already
required `m > 1`). -/
theorem C2_modExp_correct (b e m : Nat) (hb : b < W) (he : e < W) (hm : 1 < m)
    (hmB : m ≤ 2 ^ 2048) : modExp b e m = some (b ^ e % m) := by
  unfold modExp
  rw [if_neg (by omega), modExpC_eq b e m hb he hm hmB]

theorem C2_modExp_correct_witness :
    (4:Nat) < W ∧ (13:Nat) < W ∧ (1:Nat) < 497 ∧ (497:Nat) ≤ 2 ^ 2048 ∧
    modExp 4 13 497 = some 445 :=
  ⟨lt_W_of_le (le_pow2048_small (by omega)), lt_W_of_le (le_pow2048_small (by omega)),
   by omega, le_pow2048_small (by omega),
   (C2_modExp_correct 4 13 497 (lt_W_of_le (le_pow2048_small (by omega)))
      (lt_W_of_le (le_pow2048_small (by omega))) (by omega)
      (le_pow2048_small (by omega))).trans (by decide)⟩

/-- C2 (counterexample): with modulus `m = 2^4095 + 1 > 2^2048`, the
intermediate square `(2^2048)^2 = 2^4096` wraps to `0` inside the loop's
`operator*`, so `modExp(2^2048, 2, m)` returns `0` while
`(2^2048)^2 mod m = 2^4095 - 1 ≠ 0`: the claim is false for every-`m`. -/
theorem C2_counterexample :
    modExp (2 ^ 2048) 2 (2 ^ 4095 + 1) = some 0 ∧
    (2 ^ 2048 : Nat) ^ 2 % (2 ^ 4095 + 1) = 2 ^ 4095 - 1 ∧
    (0 : Nat) ≠ 2 ^ 4095 - 1 := by
  have hm0 : (0:Nat) < 2 ^ 4095 + 1 := by positivity
  have hbW : (2:Nat) ^ 2048 < W := by
    unfold W
    exact Nat.pow_lt_pow_right (by omega) (by omega)
  have hbm : (2:Nat) ^ 2048 < 2 ^ 4095 + 1 := by
    have h : (2:Nat) ^ 2048 < 2 ^ 4095 := Nat.pow_lt_pow_right (by omega) (by omega)
    omega
  have h2pos : (1:Nat) ≤ 2 ^ 4095 := Nat.pos_pow_of_pos _ (by omega)
  have h2two : (2:Nat) ≤ 2 ^ 4095 := by
    have : (2:Nat) ^ 1 ≤ 2 ^ 4095 := Nat.pow_le_pow_right (by omega) (by omega)
    simpa using this
  have hrem_b : rem (2 ^ 2048) (2 ^ 4095 + 1) = 2 ^ 2048 := by
    rw [rem_eq _ _ hbW hm0]
    exact Nat.mod_eq_of_lt hbm
  have hsq : (2:Nat) ^ 2048 * 2 ^ 2048 % W = 0 := by
    have h : (2:Nat) ^ 2048 * 2 ^ 2048 = W := by rw [W, ← Nat.pow_add]
    rw [h, Nat.mod_self]
  have hrem0 : rem 0 (2 ^ 4095 + 1) = 0 := by
    rw [rem_eq _ _ (Nat.pos_pow_of_pos _ (by omega)) hm0]
    exact Nat.zero_mod _
  have stepE : ∀ (f base result : Nat), modExpLoop (2 ^ 4095 + 1) (f + 1) base 2 result =
      modExpLoop (2 ^ 4095 + 1) f (rem (base * base % W) (2 ^ 4095 + 1)) 1 result := by
    intro f base result
    simp only [modExpLoop]
    rw [if_neg (show ¬(2:Nat) = 0 by omega), if_neg (show ¬(2:Nat) % 2 = 1 by omega)]
  have stepO : ∀ (f base result : Nat), modExpLoop (2 ^ 4095 + 1) (f + 1) base 1 result =
      modExpLoop (2 ^ 4095 + 1) f (rem (base * base % W) (2 ^ 4095 + 1)) 0
        (rem (result * base % W) (2 ^ 4095 + 1)) := by
    intro f base result
    simp only [modExpLoop]
    simp
  have stepZ : ∀ (f base result : Nat),
      modExpLoop (2 ^ 4095 + 1) (f + 1) base 0 result = result := by
    intro f base result
    simp only [modExpLoop]
    simp
  have step1 : modExpLoop (2 ^ 4095 + 1) 4096 (2 ^ 2048) 2 1 =
      modExpLoop (2 ^ 4095 + 1) 4095
        (rem (2 ^ 2048 * 2 ^ 2048 % W) (2 ^ 4095 + 1)) 1 1 := by
    show modExpLoop (2 ^ 4095 + 1) (4095 + 1) (2 ^ 2048) 2 1 = _
    exact stepE 4095 (2 ^ 2048) 1
  have step2 : modExpLoop (2 ^ 4095 + 1) 4095 0 1 1 =
      modExpLoop (2 ^ 4095 + 1) 4094 (rem (0 * 0 % W) (2 ^ 4095 + 1)) 0
        (rem (1 * 0 % W) (2 ^ 4095 + 1)) := by
    show modExpLoop (2 ^ 4095 + 1) (4094 + 1) 0 1 1 = _
    exact stepO 4094 0 1
  have h00 : rem (0 * 0 % W) (2 ^ 4095 + 1) = 0 := by
    rw [show (0:Nat) * 0 % W = 0 by simp, hrem0]
  have h10 : rem (1 * 0 % W) (2 ^ 4095 + 1) = 0 := by
    rw [show (1:Nat) * 0 % W = 0 by simp, hrem0]
  have step3 : modExpLoop (2 ^ 4095 + 1) 4094 0 0 0 = 0 := by
    show modExpLoop (2 ^ 4095 + 1) (4093 + 1) 0 0 0 = 0
    exact stepZ 4093 0 0
  refine ⟨?_, ?_, by omega⟩
  · unfold modExp modExpC
    rw [if_neg (by omega), hrem_b, step1, hsq, hrem0, step2, h00, step3]
  · have key : ∀ M : Nat, 1 ≤ M → M * 2 % (M + 1) = M - 1 := by
      intro M hM
      rw [show M * 2 = M - 1 + 1 * (M + 1) by omega, Nat.add_mul_mod_self_right]
      exact Nat.mod_eq_of_lt (by omega)
    calc (2 ^ 2048 : Nat) ^ 2 % (2 ^ 4095 + 1)
        = 2 ^ 4096 % (2 ^ 4095 + 1) := by
          rw [← pow_mul]
      _ = 2 ^ 4095 * 2 % (2 ^ 4095 + 1) := by
          rw [show (4096:Nat) = 4095 + 1 from rfl, Nat.pow_succ]
      _ = 2 ^ 4095 - 1 := key (2 ^ 4095) h2pos

/-- C6: decimal round-trip.  For every representable `x`,
`parse (render x) = x`; the rendering of zero is the single character `"0"`
and a nonzero rendering never starts with a zero digit. -/
theorem C6_decimal_roundtrip (x : Nat) (hx : x < W) :
    parse (render x) = x ∧ (x = 0 → render x = ['0']) ∧
    (x ≠ 0 → (render x).head? ≠ some '0') := by
  refine ⟨?_, ?_, ?_⟩
  · by_cases h0 : x = 0
    · subst h0
      have h1 : render 0 = ['0'] := rfl
      rw [h1]
      simp only [parse, List.foldl_cons, List.foldl_nil]
      rw [if_neg (by decide), Nat.zero_mul, Nat.zero_mod,
        show Char.toNat '0' = 48 from rfl, Nat.sub_self, Nat.add_zero, Nat.zero_mod]
    · unfold render
      rw [if_neg h0, renderLoop_digits 4096 x hx hx]
      have h := parse_rev_digits (Nat.digits 10 x)
        (fun d hd => Nat.digits_lt_base (by omega) hd)
        (by rw [Nat.ofDigits_digits]; exact hx)
      rw [Nat.ofDigits_digits] at h
      exact h
  · intro h0
    subst h0
    rfl
  · intro h0
    unfold render
    rw [if_neg h0, renderLoop_digits 4096 x hx hx, List.head?_reverse,
      List.getLast?_map]
    have hne : Nat.digits 10 x ≠ [] := Nat.digits_ne_nil_iff_ne_zero.mpr h0
    rw [List.getLast?_eq_getLast_of_ne_nil hne]
    have hmem : (Nat.digits 10 x).getLast hne ∈ Nat.digits 10 x := List.getLast_mem hne
    have hlt : (Nat.digits 10 x).getLast hne < 10 := Nat.digits_lt_base (by omega) hmem
    have hnz : (Nat.digits 10 x).getLast hne ≠ 0 := by
      have := Nat.getLast_digit_ne_zero 10 h0
      exact this
    have hchr : chr ((Nat.digits 10 x).getLast hne) ≠ '0' :=
      (chr_digit _ hlt).2.2 hnz
    simp only [Option.map_some']
    intro hcontra
    exact hchr (Option.some.inj hcontra)

theorem C6_decimal_roundtrip_witness :
    (120:Nat) < W ∧
    (parse (render 120) = 120 ∧ ((120:Nat) = 0 → render 120 = ['0']) ∧
      ((120:Nat) ≠ 0 → (render 120).head? ≠ some '0')) :=
  ⟨lt_W_of_le (le_pow2048_small (by omega)),
    C6_decimal_roundtrip 120 (lt_W_of_le (le_pow2048_small (by omega)))⟩

end OPrime
